import Mathlib

/-!
# Verification of the SANCrawler crawl engine

Shallow embedding, in Lean 4, of the core algorithms of the SANCrawler
repository (`sancrawler.go` together with the two unnamed historical
iterations of the same program).  Go strings are modelled as `List Char`
(the sources only ever manipulate ASCII data: domain names, JSON syntax,
HTML fragments).  Go `int` is modelled as `Int` where the sign matters
(the brace-balance counter) and as `Nat` for counts and offsets.

Each section names the Go function it embeds.
-/

namespace SANCrawler

/-! ## ASCII lower-casing (`strings.ToLower` restricted to ASCII,
as used on the names flowing through the crawler) -/

/-- ASCII lower-casing of one character, as `strings.ToLower` acts on the
ASCII range: bytes 65..90 are shifted by 32, all others kept. -/
def lowerChar (c : Char) : Char :=
  if h : 65 ≤ c.toNat ∧ c.toNat ≤ 90 then
    Char.ofNatAux (c.toNat + 32) (Or.inl (by omega))
  else c

/-- Lower-casing a whole name. -/
def lowerStr (s : List Char) : List Char := s.map lowerChar

theorem toNat_ofNatAux (n : Nat) (h : n.isValidChar) :
    (Char.ofNatAux n h).toNat = n := rfl

theorem lowerChar_idem (c : Char) : lowerChar (lowerChar c) = lowerChar c := by
  by_cases h : 65 ≤ c.toNat ∧ c.toNat ≤ 90
  · have h1 : lowerChar c = Char.ofNatAux (c.toNat + 32) (Or.inl (by omega)) := by
      rw [lowerChar, dif_pos h]
    have h2 : (lowerChar c).toNat = c.toNat + 32 := by rw [h1, toNat_ofNatAux]
    have h3 : ¬(65 ≤ (lowerChar c).toNat ∧ (lowerChar c).toNat ≤ 90) := by
      rw [h2]; omega
    rw [lowerChar, dif_neg h3]
  · have h1 : lowerChar c = c := by rw [lowerChar, dif_neg h]
    rw [h1, lowerChar, dif_neg h]

theorem lowerStr_idem (s : List Char) : lowerStr (lowerStr s) = lowerStr s := by
  simp [lowerStr, Function.comp_def, lowerChar_idem]

/-! ## `patchJSON` (unnamed part_001, lines 99–124)

```go
func patchJSON(jsondata []byte) string {
    var builder strings.Builder
    balanced := 0
    builder.WriteByte('[')
    for i := 0; i < len(jsondata); i++ {
        builder.WriteByte(jsondata[i])
        if jsondata[i] == '{' { balanced++ }
        else if jsondata[i] == '}' { balanced-- }
        if balanced == 0 && i != len(jsondata)-1 { builder.WriteByte(',') }
    }
    builder.WriteByte(']')
    return builder.String()
}
```
-/

/-- One step of the brace-balance counter (`balanced++` / `balanced--`). -/
def stepBal (bal : Int) (c : Char) : Int :=
  if c = '{' then bal + 1 else if c = '}' then bal - 1 else bal

/-- The body of `patchJSON`'s loop: `bal` is the balance accumulated over the
bytes already written; `i != len(jsondata)-1` is `rest ≠ []`. -/
def patchLoop : List Char → Int → List Char
  | [], _ => []
  | c :: rest, bal =>
    c :: ((if stepBal bal c = 0 ∧ rest ≠ [] then [','] else []) ++
      patchLoop rest (stepBal bal c))

/-- `patchJSON`: wrap the comma-patched bytes in `[` … `]`. -/
def patchJSON (jsondata : List Char) : List Char :=
  '[' :: patchLoop jsondata 0 ++ [']']

/-- Brace balance of a whole byte sequence. -/
def balanceOf (s : List Char) : Int := s.foldl stepBal 0

/-- Modelled from the spec claim’s words, for comparison with `patchJSON`:
after every byte whose running brace balance (the balance of the prefix
ending at that byte) is zero and which is not the final byte, a comma is
inserted; `done` is the prefix already consumed. -/
def specPatchAux (done : List Char) : List Char → List Char
  | [] => []
  | c :: rest =>
    c :: ((if balanceOf (done ++ [c]) = 0 ∧ rest ≠ [] then [','] else []) ++
      specPatchAux (done ++ [c]) rest)

/-- The claim-worded comma insertion, starting from the empty prefix. -/
def specPatch (s : List Char) : List Char := specPatchAux [] s

theorem balanceOf_append_singleton (done : List Char) (c : Char) :
    balanceOf (done ++ [c]) = stepBal (balanceOf done) c := by
  simp [balanceOf, List.foldl_append]

theorem patchLoop_eq_specPatchAux (s done : List Char) :
    patchLoop s (balanceOf done) = specPatchAux done s := by
  induction s generalizing done with
  | nil => rfl
  | cons c rest ih =>
    show patchLoop (c :: rest) (balanceOf done) = specPatchAux done (c :: rest)
    rw [patchLoop, specPatchAux, balanceOf_append_singleton]
    rw [← ih (done ++ [c]), balanceOf_append_singleton]

theorem patchLoop_eq_specPatch (s : List Char) : patchLoop s 0 = specPatch s := by
  have h := patchLoop_eq_specPatchAux s []
  simpa [balanceOf, specPatch] using h

/-! ### The well-braced-chunk theorem behind C1 -/

/-- A chunk is *well braced for starting balance `bal`* when the running
balance returns to zero exactly at its final byte and nowhere earlier.
Valid JSON objects containing no brace byte inside a string literal are
well braced for balance 0. -/
def zeroOnlyAtEnd (bal : Int) : List Char → Bool
  | [] => false
  | c :: rest =>
    if rest.isEmpty then stepBal bal c == 0
    else (!(stepBal bal c == 0)) && zeroOnlyAtEnd (stepBal bal c) rest

/-- Chunks joined by single commas, as the claim words the expected output. -/
def joinWithComma : List (List Char) → List Char
  | [] => []
  | [o] => o
  | o :: rest => o ++ ',' :: joinWithComma rest

theorem patchLoop_chunk (o : List Char) (bal : Int) (rest : List Char)
    (h : zeroOnlyAtEnd bal o = true) :
    patchLoop (o ++ rest) bal =
      o ++ (if rest.isEmpty then [] else ',' :: patchLoop rest 0) := by
  induction o generalizing bal with
  | nil => simp [zeroOnlyAtEnd] at h
  | cons c o' ih =>
    cases o' with
    | nil =>
      have hb : stepBal bal c = 0 := by simpa [zeroOnlyAtEnd] using h
      cases rest with
      | nil => simp [patchLoop, hb]
      | cons r rs => simp [patchLoop, hb]
    | cons d o2 =>
      have h' : ((!(stepBal bal c == 0)) &&
          zeroOnlyAtEnd (stepBal bal c) (d :: o2)) = true := by
        simpa [zeroOnlyAtEnd] using h
      rw [Bool.and_eq_true] at h'
      obtain ⟨hb0, hrec⟩ := h'
      have hb : ¬ stepBal bal c = 0 := by simpa using hb0
      rw [List.cons_append, patchLoop, ih _ hrec]
      simp [hb]

theorem zeroOnlyAtEnd_ne_nil {bal : Int} {o : List Char}
    (h : zeroOnlyAtEnd bal o = true) : o ≠ [] := by
  intro hn
  subst hn
  simp [zeroOnlyAtEnd] at h

theorem patchLoop_join (objs : List (List Char))
    (h : ∀ o ∈ objs, zeroOnlyAtEnd 0 o = true) :
    patchLoop objs.flatten 0 = joinWithComma objs := by
  induction objs with
  | nil => rfl
  | cons o rest ih =>
    have ho := h o (List.mem_cons_self o rest)
    have hrest : ∀ o' ∈ rest, zeroOnlyAtEnd 0 o' = true :=
      fun o' h' => h o' (List.mem_cons_of_mem _ h')
    rw [List.flatten_cons, patchLoop_chunk o 0 _ ho]
    cases rest with
    | nil => simp [joinWithComma]
    | cons p ps =>
      have hp : p ≠ [] := zeroOnlyAtEnd_ne_nil (hrest p (List.mem_cons_self p ps))
      have hne : ((p :: ps).flatten).isEmpty = false := by
        simp [List.flatten_cons, List.isEmpty_iff, hp]
      simp only [hne, Bool.false_eq_true, if_false]
      rw [ih hrest]
      rfl

/-! ## JSON syntax (RFC 8259), used to state what a *syntactically valid
JSON object* is (claim C1) and to model `json.Unmarshal` into `[]caID`
(unnamed part_001, lines 138 and 154–157). -/

/-- JSON values, keeping numbers in their syntactic form. -/
inductive Json where
  | jnull : Json
  | jbool (b : Bool) : Json
  | jnum (neg : Bool) (intPart fracPart expPart : List Char) : Json
  | jstr (s : List Char) : Json
  | jarr (elems : List Json) : Json
  | jobj (fields : List (List Char × Json)) : Json

/-- JSON insignificant whitespace. -/
def isWSChar (c : Char) : Bool := c = ' ' || c = '\t' || c = '\n' || c = '\r'

def skipWS : List Char → List Char
  | [] => []
  | c :: rest => if isWSChar c then skipWS rest else c :: rest

def isDigitChar (c : Char) : Bool := '0' ≤ c && c ≤ '9'

def isHexChar (c : Char) : Bool :=
  isDigitChar c || ('a' ≤ c && c ≤ 'f') || ('A' ≤ c && c ≤ 'F')

/-- Longest digit prefix. -/
def takeDigits : List Char → List Char × List Char
  | [] => ([], [])
  | c :: rest =>
    if isDigitChar c then
      match takeDigits rest with
      | (d, r) => (c :: d, r)
    else ([], c :: rest)

/-- Body of a JSON string literal, the opening quote already consumed;
returns the content (escapes kept verbatim) and the input after the closing
quote. -/
def parseStrBody : List Char → Option (List Char × List Char)
  | [] => none
  | c :: rest =>
    if c = '"' then some ([], rest)
    else if c = '\\' then
      match rest with
      | [] => none
      | e :: rest2 =>
        if e = 'u' then
          match rest2 with
          | h1 :: h2 :: h3 :: h4 :: rest3 =>
            if isHexChar h1 && isHexChar h2 && isHexChar h3 && isHexChar h4 then
              (parseStrBody rest3).map
                (fun p => (c :: e :: h1 :: h2 :: h3 :: h4 :: p.1, p.2))
            else none
          | _ => none
        else if e = '"' || e = '\\' || e = '/' || e = 'b' || e = 'f' ||
            e = 'n' || e = 'r' || e = 't' then
          (parseStrBody rest2).map (fun p => (c :: e :: p.1, p.2))
        else none
    else if c.toNat < 32 then none
    else (parseStrBody rest).map (fun p => (c :: p.1, p.2))

/-- Optional fraction part, at a potential `.`. -/
def parseFrac : List Char → Option (List Char × List Char)
  | '.' :: r =>
    match takeDigits r with
    | ([], _) => none
    | (f, rr) => some ('.' :: f, rr)
  | s => some ([], s)

/-- Optional exponent part, at a potential `e`/`E`. -/
def parseExp : List Char → Option (List Char × List Char)
  | [] => some ([], [])
  | c :: r =>
    if c = 'e' || c = 'E' then
      match (match r with
             | '+' :: rr => (['+'], rr)
             | '-' :: rr => (['-'], rr)
             | _ => (([] : List Char), r)) with
      | (sgn, r1) =>
        match takeDigits r1 with
        | ([], _) => none
        | (ds, rr) => some (c :: sgn ++ ds, rr)
    else some ([], c :: r)

/-- A JSON number at the head of the input. -/
def parseNumber (s : List Char) : Option (Json × List Char) :=
  match (match s with
         | '-' :: r => (true, r)
         | _ => (false, s)) with
  | (neg, s1) =>
    match takeDigits s1 with
    | ([], _) => none
    | (ds, r1) =>
      if 1 < ds.length ∧ ds.headD '0' = '0' then none
      else
        match parseFrac r1 with
        | none => none
        | some (f, r2) =>
          match parseExp r2 with
          | none => none
          | some (e, r3) => some (.jnum neg ds f e, r3)

mutual

/-- A JSON value (with its surrounding whitespace skipped on the left),
fueled; every recursive call both consumes input and spends fuel, so fuel
`2 * length + 2` always suffices. -/
def parseVal : Nat → List Char → Option (Json × List Char)
  | 0, _ => none
  | fuel + 1, s =>
    match skipWS s with
    | [] => none
    | c :: r =>
      if c = '"' then (parseStrBody r).map (fun p => (.jstr p.1, p.2))
      else if c = 't' then
        match r with
        | 'r' :: 'u' :: 'e' :: r2 => some (.jbool true, r2)
        | _ => none
      else if c = 'f' then
        match r with
        | 'a' :: 'l' :: 's' :: 'e' :: r2 => some (.jbool false, r2)
        | _ => none
      else if c = 'n' then
        match r with
        | 'u' :: 'l' :: 'l' :: r2 => some (.jnull, r2)
        | _ => none
      else if c = '-' || isDigitChar c then parseNumber (c :: r)
      else if c = '[' then
        match skipWS r with
        | ']' :: r2 => some (.jarr [], r2)
        | r2 => (parseElems fuel r2).map (fun p => (.jarr p.1, p.2))
      else if c = '{' then
        match skipWS r with
        | '}' :: r2 => some (.jobj [], r2)
        | r2 => (parseMembers fuel r2).map (fun p => (.jobj p.1, p.2))
      else none

/-- One or more `key : value` members followed by `}`. -/
def parseMembers : Nat → List Char → Option (List (List Char × Json) × List Char)
  | 0, _ => none
  | fuel + 1, s =>
    match skipWS s with
    | '"' :: r =>
      match parseStrBody r with
      | none => none
      | some (key, r1) =>
        match skipWS r1 with
        | ':' :: r2 =>
          match parseVal fuel r2 with
          | none => none
          | some (v, r3) =>
            match skipWS r3 with
            | ',' :: r4 =>
              match parseMembers fuel r4 with
              | none => none
              | some (fs, r5) => some ((key, v) :: fs, r5)
            | '}' :: r4 => some ([(key, v)], r4)
            | _ => none
        | _ => none
    | _ => none

/-- One or more array elements followed by `]`. -/
def parseElems : Nat → List Char → Option (List Json × List Char)
  | 0, _ => none
  | fuel + 1, s =>
    match parseVal fuel s with
    | none => none
    | some (v, r1) =>
      match skipWS r1 with
      | ',' :: r2 =>
        match parseElems fuel r2 with
        | none => none
        | some (vs, r3) => some (v :: vs, r3)
      | ']' :: r2 => some ([v], r2)
      | _ => none

end

/-- Parse a complete JSON value with ample fuel. -/
def parseJSONValue (s : List Char) : Option (Json × List Char) :=
  parseVal (2 * s.length + 2) s

/-- `s` is one syntactically valid JSON object (with optional surrounding
whitespace). -/
def isJSONObject (s : List Char) : Bool :=
  match parseJSONValue s with
  | some (.jobj _, rest) => (skipWS rest).isEmpty
  | _ => false

/-! ## `json.Unmarshal` into `[]caID` (unnamed part_001, lines 28–31, 154) -/

/-- `type caID struct { ID int; NumCerts int }`. -/
structure CaID where
  ID : Int
  NumCerts : Int
deriving DecidableEq

/-- Decimal digits to a natural number. -/
def digitsToNat (ds : List Char) : Nat :=
  ds.foldl (fun acc c => 10 * acc + (c.toNat - 48)) 0

/-- A JSON value usable for a Go `int` field: an integer literal. -/
def jsonToInt : Json → Option Int
  | .jnum neg ds [] [] =>
    some (if neg then -(digitsToNat ds : Int) else (digitsToNat ds : Int))
  | _ => none

/-- First field with the given key. -/
def fieldLookup (fields : List (List Char × Json)) (key : List Char) :
    Option Json :=
  (fields.find? (fun f => f.1 == key)).map Prod.snd

/-- Decode one array element into a `caID`; Go leaves a missing field at its
zero value and errors on a non-object element or a non-integer field. -/
def caIDOfJson : Json → Option CaID
  | .jobj fields =>
    match (match fieldLookup fields (String.toList "issuer_ca_id") with
           | none => some (0 : Int)
           | some j => jsonToInt j),
          (match fieldLookup fields (String.toList "num_certs") with
           | none => some (0 : Int)
           | some j => jsonToInt j) with
    | some a, some b => some ⟨a, b⟩
    | _, _ => none
  | _ => none

/-- `json.Unmarshal([]byte(caJSON), &groupedCAIDs)`: the payload must be one
JSON array whose elements all decode into `caID`s. -/
def unmarshalCAIDs (s : List Char) : Option (List CaID) :=
  match parseJSONValue s with
  | some (.jarr elems, rest) =>
    if (skipWS rest).isEmpty then elems.mapM caIDOfJson else none
  | _ => none

/-! ## Concrete JSON inputs used in the C1 theorems -/

/-- The JSON object `\x7b"a":"\x7d"\x7d`: syntactically valid, with a closing
brace inside the string literal. -/
def cexObj : List Char := ['{', '"', 'a', '"', ':', '"', '}', '"', '}']

/-- The JSON object `\x7b"a":1\x7d`. -/
def objA : List Char := ['{', '"', 'a', '"', ':', '1', '}']

/-- The JSON object `\x7b"b":2\x7d`. -/
def objB : List Char := ['{', '"', 'b', '"', ':', '2', '}']

/-- The JSON object `\x7b"c":3\x7d`. -/
def objC : List Char := ['{', '"', 'c', '"', ':', '3', '}']

/-- C1 counterexample: `cexObj` is one syntactically valid JSON object, yet
`patchJSON` applied to it (a one-object sequence) is not `[` ++ object ++ `]`:
the brace counter reaches zero at the `\x7d` byte inside the string literal
and a comma is inserted there, so the claim as stated is false. -/
theorem patchJSON_validJSON_counterexample :
    isJSONObject cexObj = true ∧
    patchJSON cexObj ≠ '[' :: joinWithComma [cexObj] ++ [']'] := by
  constructor
  · decide
  · decide

/-- C1 (amended): for every sequence of chunks whose byte-level brace balance
is zero exactly at the final byte of each chunk — in particular any sequence
of syntactically valid JSON objects none of which contains a brace byte
inside a string literal — `patchJSON` of their separator-less concatenation
is `[` followed by the chunks joined by single commas followed by `]`; for a
single chunk there is no trailing comma and for the empty sequence the
output is exactly `[]`. -/
theorem patchJSON_wellBraced (objs : List (List Char))
    (h : ∀ o ∈ objs, zeroOnlyAtEnd 0 o = true) :
    patchJSON objs.flatten = '[' :: joinWithComma objs ++ [']'] := by
  rw [patchJSON, patchLoop_join objs h]

/-- Witness for `patchJSON_wellBraced` at the three objects of the spec's
example, plus the one-object and zero-object instances. -/
theorem patchJSON_wellBraced_witness :
    ((∀ o ∈ [objA, objB, objC], zeroOnlyAtEnd 0 o = true) ∧
      patchJSON [objA, objB, objC].flatten =
        '[' :: joinWithComma [objA, objB, objC] ++ [']']) ∧
    patchJSON [objA].flatten = '[' :: joinWithComma [objA] ++ [']'] ∧
    patchJSON ([] : List (List Char)).flatten =
      '[' :: joinWithComma [] ++ [']'] :=
  ⟨⟨by decide, patchJSON_wellBraced [objA, objB, objC] (by decide)⟩,
    patchJSON_wellBraced [objA] (by decide),
    patchJSON_wellBraced [] (by decide)⟩

/-- C10: `patchJSON` is total on arbitrary byte sequences and equals the
claim-worded transformation `specPatch` (a comma after every non-final byte
at which the running brace balance is zero, whatever that byte is), wrapped
in brackets; in particular the non-JSON input `ab` yields `[a,b]`. -/
theorem patchJSON_total_comma_insertion :
    (∀ s : List Char, patchJSON s = '[' :: specPatch s ++ [']']) ∧
    patchJSON (String.toList "ab") = String.toList "[a,b]" := by
  refine ⟨fun s => ?_, by decide⟩
  rw [patchJSON, patchLoop_eq_specPatch]

/-! ## `crawlerFn` extraction (unnamed part_001, lines 70–90, 217–218)

The two shared regexes are `(?i)commonName=.*?<` and `(?i)DNS:.*?<`;
`FindAllString(bodys, -1)` returns all non-overlapping leftmost matches.
With a literal case-insensitive prefix and a lazy `.*?` up to a literal
`<` (`.` matching anything but a newline), a leftmost match is: the
case-insensitive prefix, then the shortest newline-free run of bytes up to
and including the first `<`; the scan resumes after each match. -/

/-- The lazy `.*?<` tail: shortest run of non-newline bytes ending at the
first `<`; returns (matched tail including `<`, rest of input). -/
def scanToLT : List Char → Option (List Char × List Char)
  | [] => none
  | c :: rest =>
    if c = '<' then some ([c], rest)
    else if c = '\n' then none
    else
      match scanToLT rest with
      | none => none
      | some (m, r) => some (c :: m, r)

/-- Case-insensitive literal prefix match (`pat` is already lower-case);
returns the input after the prefix. -/
def dropPrefixCI : List Char → List Char → Option (List Char)
  | [], s => some s
  | _ :: _, [] => none
  | p :: ps, c :: cs => if lowerChar c = p then dropPrefixCI ps cs else none

/-- One leftmost-anchored match of `pat` + `.*?<` at the head of `s`:
returns (matched text as it appears in `s`, rest of input). -/
def matchPat (pat s : List Char) : Option (List Char × List Char) :=
  (dropPrefixCI pat s).bind fun s1 =>
    (scanToLT s1).map fun p => (s.take pat.length ++ p.1, p.2)

theorem scanToLT_length {s m r : List Char} (h : scanToLT s = some (m, r)) :
    m.length + r.length = s.length ∧ 0 < m.length := by
  induction s generalizing m r with
  | nil => simp [scanToLT] at h
  | cons c rest ih =>
    rw [scanToLT] at h
    by_cases hc : c = '<'
    · simp only [hc, if_true, Option.some.injEq, Prod.mk.injEq] at h
      obtain ⟨hm, hr⟩ := h
      subst hm; subst hr
      refine ⟨by simp [Nat.add_comm], by simp⟩
    · simp only [hc, if_false] at h
      by_cases hn : c = '\n'
      · simp [hn] at h
      · simp only [hn, if_false] at h
        cases hrec : scanToLT rest with
        | none => rw [hrec] at h; simp at h
        | some p =>
          rw [hrec] at h
          obtain ⟨m', r'⟩ := p
          simp only [Option.some.injEq, Prod.mk.injEq] at h
          obtain ⟨hm, hr⟩ := h
          subst hm; subst hr
          obtain ⟨h1, h2⟩ := ih hrec
          refine ⟨?_, by simp⟩
          simp only [List.length_cons]
          omega

theorem dropPrefixCI_length {ps s r : List Char}
    (h : dropPrefixCI ps s = some r) : r.length + ps.length = s.length := by
  induction ps generalizing s with
  | nil =>
    simp only [dropPrefixCI, Option.some.injEq] at h
    simp [← h]
  | cons p ps' ih =>
    cases s with
    | nil => simp [dropPrefixCI] at h
    | cons c cs =>
      rw [dropPrefixCI] at h
      by_cases hc : lowerChar c = p
      · simp only [hc, if_true] at h
        have := ih h
        simp [List.length_cons]
        omega
      · simp [hc] at h

theorem matchPat_length {pat s m r : List Char}
    (h : matchPat pat s = some (m, r)) : r.length < s.length := by
  rw [matchPat, Option.bind_eq_some] at h
  obtain ⟨s1, h1, h2⟩ := h
  rw [Option.map_eq_some'] at h2
  obtain ⟨p, hp, hfp⟩ := h2
  obtain ⟨mid, r'⟩ := p
  simp only [Prod.mk.injEq] at hfp
  obtain ⟨_, hr⟩ := hfp
  subst hr
  have hd := dropPrefixCI_length h1
  have hs := scanToLT_length hp
  omega

/-- `FindAllString(body, -1)`: repeatedly take the leftmost match and resume
after it, else advance one byte. -/
def findAll (pat : List Char) (s : List Char) : List (List Char) :=
  match hm : matchPat pat s with
  | some (m, r) => m :: findAll pat r
  | none =>
    match s with
    | [] => []
    | _ :: rest => findAll pat rest
termination_by s.length
decreasing_by
  · exact matchPat_length hm
  · simp

theorem findAll_some {pat s m r : List Char}
    (h : matchPat pat s = some (m, r)) :
    findAll pat s = m :: findAll pat r := by
  conv_lhs => rw [findAll]
  split
  · rename_i m' r' hm
    rw [h] at hm
    simp only [Option.some.injEq, Prod.mk.injEq] at hm
    rw [hm.1, hm.2]
  · rename_i hm
    rw [h] at hm
    simp at hm

theorem findAll_nil (pat : List Char) (hne : pat ≠ []) :
    findAll pat [] = [] := by
  have hnone : matchPat pat [] = none := by
    cases pat with
    | nil => exact absurd rfl hne
    | cons p ps => rfl
  conv_lhs => rw [findAll]
  split
  · rename_i m' r' hm
    rw [hnone] at hm
    simp at hm
  · rfl

/-! ### Extraction as `crawlerFn` performs it -/

/-- The lower-cased literal prefix of `(?i)commonName=.*?<`. -/
def cnPat : List Char := String.toList "commonname="

/-- The lower-cased literal prefix of `(?i)DNS:.*?<`. -/
def sanPat : List Char := String.toList "dns:"

/-- Common-Name extraction (`crawlerFn`, lines 77–83): all matches of the
Common-Name regex, the first discarded, then `[11 : len-1]` stripping. -/
def extractCN (body : List Char) : List (List Char) :=
  ((findAll cnPat body).drop 1).map fun m => (m.drop 11).dropLast

/-- SAN extraction (`crawlerFn`, lines 85–90): every match of the DNS-SAN
regex, `[4 : len-1]` stripping, no skipping. -/
def extractSAN (body : List Char) : List (List Char) :=
  (findAll sanPat body).map fun m => (m.drop 4).dropLast

/-- A Common-Name field occurrence with value `v`. -/
def mkCN (v : List Char) : List Char := String.toList "commonName=" ++ v ++ ['<']

/-- A DNS-type SAN occurrence with value `v`. -/
def mkSAN (v : List Char) : List Char := String.toList "DNS:" ++ v ++ ['<']

theorem dropPrefixCI_map_lower (hdr t : List Char) :
    dropPrefixCI (hdr.map lowerChar) (hdr ++ t) = some t := by
  induction hdr with
  | nil => rfl
  | cons c cs ih => simp [dropPrefixCI, ih]

theorem scanToLT_clean (v rest : List Char) (hlt : '<' ∉ v) (hnl : '\n' ∉ v) :
    scanToLT (v ++ '<' :: rest) = some (v ++ ['<'], rest) := by
  induction v with
  | nil => simp [scanToLT]
  | cons c cs ih =>
    have hc1 : ¬ c = '<' := fun hh => hlt (by simp [hh])
    have hc2 : ¬ c = '\n' := fun hh => hnl (by simp [hh])
    have ih' := ih (fun hh => hlt (List.mem_cons_of_mem _ hh))
      (fun hh => hnl (List.mem_cons_of_mem _ hh))
    simp [scanToLT, hc1, hc2, ih']

theorem matchPat_chunk (hdr v rest : List Char)
    (hlt : '<' ∉ v) (hnl : '\n' ∉ v) :
    matchPat (hdr.map lowerChar) (hdr ++ v ++ '<' :: rest) =
      some (hdr ++ v ++ ['<'], rest) := by
  rw [matchPat]
  rw [List.append_assoc, dropPrefixCI_map_lower hdr (v ++ '<' :: rest)]
  rw [Option.some_bind, scanToLT_clean v rest hlt hnl, Option.map_some']
  have htake : ((hdr ++ (v ++ '<' :: rest)).take (hdr.map lowerChar).length) =
      hdr := by
    rw [List.length_map, List.take_left]
  rw [htake]
  simp

theorem findAll_chunks (hdr pat : List Char) (hpat : pat = hdr.map lowerChar)
    (hne : hdr ≠ []) (vs : List (List Char))
    (hv : ∀ v ∈ vs, '<' ∉ v ∧ '\n' ∉ v) :
    findAll pat ((vs.map (fun v => hdr ++ v ++ ['<'])).flatten) =
      vs.map (fun v => hdr ++ v ++ ['<']) := by
  induction vs with
  | nil =>
    apply findAll_nil
    rw [hpat]
    simpa using hne
  | cons v vs' ih =>
    obtain ⟨hlt, hnl⟩ := hv v (List.mem_cons_self v vs')
    have hbody : ((v :: vs').map (fun v => hdr ++ v ++ ['<'])).flatten =
        hdr ++ v ++ '<' :: ((vs'.map (fun v => hdr ++ v ++ ['<'])).flatten) := by
      simp [List.flatten_cons]
    rw [hbody, hpat, findAll_some (matchPat_chunk hdr v _ hlt hnl), ← hpat]
    rw [ih (fun v' h' => hv v' (List.mem_cons_of_mem _ h'))]
    simp

theorem strip_mkCN (v : List Char) : ((mkCN v).drop 11).dropLast = v := by
  have h11 : (String.toList "commonName=").length = 11 := rfl
  have h1 : (mkCN v).drop 11 = v ++ ['<'] := by
    rw [mkCN, List.append_assoc, ← h11, List.drop_left]
  rw [h1]
  simp

theorem strip_mkSAN (v : List Char) : ((mkSAN v).drop 4).dropLast = v := by
  have h4 : (String.toList "DNS:").length = 4 := rfl
  have h1 : (mkSAN v).drop 4 = v ++ ['<'] := by
    rw [mkSAN, List.append_assoc, ← h4, List.drop_left]
  rw [h1]
  simp

/-- C2: on a page body that is exactly `N` Common-Name field occurrences
(values free of the terminator `<` and of newlines), extraction with the
Common-Name kind finds all `N` occurrences, returns the `N − 1` candidates
after skipping only the first, in original order; for `N = 1` and `N = 0`
it returns zero candidates (and is total, never an error). -/
theorem extractCN_skips_first (vs : List (List Char))
    (h : ∀ v ∈ vs, '<' ∉ v ∧ '\n' ∉ v) :
    (∀ body : List Char,
      (extractCN body).length = (findAll cnPat body).length - 1) ∧
    (findAll cnPat ((vs.map mkCN).flatten)).length = vs.length ∧
    extractCN ((vs.map mkCN).flatten) = vs.drop 1 ∧
    (extractCN ((vs.map mkCN).flatten)).length = vs.length - 1 := by
  refine ⟨fun body => by simp [extractCN], ?_⟩
  have hfa : findAll cnPat ((vs.map mkCN).flatten) = vs.map mkCN := by
    have hh := findAll_chunks (String.toList "commonName=") cnPat (by decide)
      (by decide) vs h
    simpa [mkCN, List.append_assoc] using hh
  have hmain : extractCN ((vs.map mkCN).flatten) = vs.drop 1 := by
    rw [extractCN, hfa, ← List.map_drop, List.map_map]
    have : (fun m => (List.drop 11 m).dropLast) ∘ mkCN = id := by
      funext v
      simp [Function.comp, strip_mkCN]
    rw [this, List.map_id]
  refine ⟨by rw [hfa]; simp, hmain, by rw [hmain]; simp⟩

/-- Witness for `extractCN_skips_first`: three occurrences give the two
candidates after the first, one occurrence gives zero, zero occurrences
give zero. -/
theorem extractCN_skips_first_witness :
    ((∀ v ∈ [String.toList "Example CA", String.toList "a.example.com",
        String.toList "b.example.com"], '<' ∉ v ∧ '\n' ∉ v) ∧
      extractCN (([String.toList "Example CA", String.toList "a.example.com",
        String.toList "b.example.com"].map mkCN).flatten) =
        [String.toList "a.example.com", String.toList "b.example.com"]) ∧
    extractCN (([String.toList "only.example"].map mkCN).flatten) = [] ∧
    extractCN (([] : List (List Char)).map mkCN).flatten = [] := by
  refine ⟨⟨by decide, ?_⟩, ?_, ?_⟩
  · exact (extractCN_skips_first _ (by decide)).2.2.1
  · exact (extractCN_skips_first [String.toList "only.example"]
      (by decide)).2.2.1
  · exact (extractCN_skips_first [] (by decide)).2.2.1

/-- C9: on a page body that is exactly `M` DNS-type Subject-Alternative-Name
occurrences (values free of `<` and newlines), extraction with the SAN kind
returns exactly `M` candidates, one per occurrence, none skipped. -/
theorem extractSAN_no_skip (vs : List (List Char))
    (h : ∀ v ∈ vs, '<' ∉ v ∧ '\n' ∉ v) :
    (∀ body : List Char,
      (extractSAN body).length = (findAll sanPat body).length) ∧
    (findAll sanPat ((vs.map mkSAN).flatten)).length = vs.length ∧
    extractSAN ((vs.map mkSAN).flatten) = vs ∧
    (extractSAN ((vs.map mkSAN).flatten)).length = vs.length := by
  refine ⟨fun body => by simp [extractSAN], ?_⟩
  have hfa : findAll sanPat ((vs.map mkSAN).flatten) = vs.map mkSAN := by
    have hh := findAll_chunks (String.toList "DNS:") sanPat (by decide)
      (by decide) vs h
    simpa [mkSAN, List.append_assoc] using hh
  have hmain : extractSAN ((vs.map mkSAN).flatten) = vs := by
    rw [extractSAN, hfa, List.map_map]
    have : (fun m => (List.drop 4 m).dropLast) ∘ mkSAN = id := by
      funext v
      simp [Function.comp, strip_mkSAN]
    rw [this, List.map_id]
  refine ⟨by rw [hfa]; simp, hmain, by rw [hmain]⟩

/-- Witness for `extractSAN_no_skip` at two SAN occurrences. -/
theorem extractSAN_no_skip_witness :
    (∀ v ∈ [String.toList "a.example.com", String.toList "b.example.com"],
      '<' ∉ v ∧ '\n' ∉ v) ∧
    extractSAN (([String.toList "a.example.com",
        String.toList "b.example.com"].map mkSAN).flatten) =
      [String.toList "a.example.com", String.toList "b.example.com"] :=
  ⟨by decide, (extractSAN_no_skip _ (by decide)).2.2.1⟩

/-! ## ResultSet aggregation

In the paginated-query pipeline the worker sends `strings.ToLower(name)`
(sancrawler.go line 90) and the coordinator does `ret[tmp] = 0`
(line 231/249); in the HTML-scraping pipeline the worker sends the
stripped match verbatim (part_001 lines 81/88) and the coordinator does
`names[n] = 0` (lines 232/249) — no lower-casing anywhere on that path. -/

/-- Go map key insertion `m[k] = 0`, on the key set. -/
def insertName (set : List (List Char)) (n : List Char) : List (List Char) :=
  if n ∈ set then set else set ++ [n]

/-- One candidate reaching the ResultSet in the paginated-query pipeline:
lower-cased by the worker before insertion. -/
def addNameDB (set : List (List Char)) (raw : List Char) : List (List Char) :=
  insertName set (lowerStr raw)

/-- One candidate reaching the ResultSet in the HTML-scraping pipeline:
inserted verbatim. -/
def addNameRaw (set : List (List Char)) (raw : List Char) : List (List Char) :=
  insertName set raw

/-- The ResultSet after a stream of candidates, paginated-query pipeline. -/
def resultSetDB (raws : List (List Char)) : List (List Char) :=
  raws.foldl addNameDB []

/-- The ResultSet after a stream of candidates, HTML-scraping pipeline. -/
def resultSetRaw (raws : List (List Char)) : List (List Char) :=
  raws.foldl addNameRaw []

theorem mem_foldl_addNameDB (raws : List (List Char))
    (acc : List (List Char)) (hacc : ∀ x ∈ acc, lowerStr x = x) :
    ∀ x ∈ raws.foldl addNameDB acc, lowerStr x = x := by
  induction raws generalizing acc with
  | nil => exact hacc
  | cons r rs ih =>
    rw [List.foldl_cons]
    apply ih
    intro x hx
    rw [addNameDB, insertName] at hx
    by_cases hmem : lowerStr r ∈ acc
    · rw [if_pos hmem] at hx
      exact hacc x hx
    · rw [if_neg hmem] at hx
      rcases List.mem_append.mp hx with hl | hr
      · exact hacc x hl
      · have : x = lowerStr r := by simpa using hr
        rw [this, lowerStr_idem]

theorem mem_resultSetDB_lower (raws : List (List Char)) :
    ∀ x ∈ resultSetDB raws, lowerStr x = x :=
  mem_foldl_addNameDB raws [] (by simp)

/-- C4 counterexample: in the HTML-scraping pipeline (part_001) candidates
are *not* lower-cased before insertion — adding `Example.com` and
`example.COM` yields a ResultSet of two entries differing only by case,
refuting the claim as stated for that pipeline. -/
theorem addNameRaw_case_counterexample :
    (resultSetRaw [String.toList "Example.com",
        String.toList "example.COM"]).length = 2 ∧
    String.toList "Example.com" ∈
      resultSetRaw [String.toList "Example.com", String.toList "example.COM"] ∧
    String.toList "example.COM" ∈
      resultSetRaw [String.toList "Example.com", String.toList "example.COM"] ∧
    lowerStr (String.toList "Example.com") =
      lowerStr (String.toList "example.COM") ∧
    String.toList "Example.com" ≠ String.toList "example.COM" := by
  refine ⟨by decide, by decide, by decide, by decide, by decide⟩

/-- C4 (amended): in the paginated-query pipeline (sancrawler.go) every
candidate is lower-cased before insertion, so the ResultSet never holds two
entries differing only by case, and the spec's `Example.com` /
`example.COM` example yields exactly `example.com` in either order; in the
HTML-scraping pipeline (part_001) candidates are inserted verbatim (see the
counterexample). -/
theorem resultSetDB_case_insensitive :
    (∀ raws x, x ∈ resultSetDB raws → ∀ y, y ∈ resultSetDB raws →
      lowerStr x = lowerStr y → x = y) ∧
    resultSetDB [String.toList "Example.com", String.toList "example.COM"] =
      [String.toList "example.com"] ∧
    resultSetDB [String.toList "example.COM", String.toList "Example.com"] =
      [String.toList "example.com"] := by
  refine ⟨?_, by decide, by decide⟩
  intro raws x hx y hy hxy
  rw [← mem_resultSetDB_lower raws x hx, ← mem_resultSetDB_lower raws y hy,
    hxy]

/-- Witness for `resultSetDB_case_insensitive` at a concrete ResultSet. -/
theorem resultSetDB_case_insensitive_witness :
    (String.toList "example.com" ∈
      resultSetDB [String.toList "Example.com", String.toList "example.COM"]) ∧
    String.toList "example.com" = String.toList "example.com" :=
  ⟨by decide,
    resultSetDB_case_insensitive.1
      [String.toList "Example.com", String.toList "example.COM"]
      (String.toList "example.com") (by decide)
      (String.toList "example.com") (by decide) rfl⟩

/-! ## Per-job fetch with one retry (part_001 `crawlerFn`, lines 48–61) -/

/-- Outcome of one HTTP fetch attempt. -/
inductive FetchOutcome where
  | ok (body : List Char) : FetchOutcome
  | fail : FetchOutcome
deriving DecidableEq

/-- The attempts available for one job: a first `http.Get` and, used only
when the first fails, the retry issued after `time.Sleep(5 * time.Second)`. -/
structure JobAttempts where
  first : FetchOutcome
  second : FetchOutcome
deriving DecidableEq

/-- Lines 50–61: take the first attempt's body; on failure wait, retry once;
on a second failure `panic(err)` — modelled as `none`. -/
def fetchWithRetry (j : JobAttempts) : Option (List Char) :=
  match j.first with
  | .ok b => some b
  | .fail =>
    match j.second with
    | .ok b => some b
    | .fail => none

/-- The candidates one fetched page contributes (lines 70–90). -/
def pageNames (body : List Char) : List (List Char) :=
  extractCN body ++ extractSAN body

/-- Processing a queue of jobs into the shared ResultSet; `none` models the
run dying by panic with no ResultSet published. -/
def runCrawl : List JobAttempts → List (List Char) → Option (List (List Char))
  | [], acc => some acc
  | j :: rest, acc =>
    match fetchWithRetry j with
    | none => none
    | some body => runCrawl rest ((pageNames body).foldl addNameRaw acc)

/-- C3: a single failed fetch followed by a successful retry gives the whole
run the same final result as an outright first-attempt success, and a job
whose two consecutive attempts fail aborts the entire run with no partial
ResultSet published. -/
theorem retry_transparent_double_failure_fatal :
    (∀ (b : List Char) (s : FetchOutcome) (rest : List JobAttempts)
        (acc : List (List Char)),
      runCrawl ({ first := .fail, second := .ok b } :: rest) acc =
        runCrawl ({ first := .ok b, second := s } :: rest) acc) ∧
    (∀ (rest : List JobAttempts) (acc : List (List Char)),
      runCrawl ({ first := .fail, second := .fail } :: rest) acc = none) :=
  ⟨fun _ _ _ _ => rfl, fun _ _ => rfl⟩

/-! ## Paginated fetch loop (sancrawler.go `getNames`, lines 57–97) -/

/-- The offsets at which `getNames` issues its paginated queries: start at
`tmpData.start`, advance by the number of records the page returned
(`offset += count`), stop exactly when a page returns zero records
(`if count == 0 { break }`).  `fuel` makes the loop total; the claims
instantiate it above the number of pages. -/
def getNamesLoop (fetchLen : Nat → Nat) : Nat → Nat → List Nat
  | 0, _ => []
  | fuel + 1, offset =>
    offset :: (if fetchLen offset = 0 then []
               else getNamesLoop fetchLen fuel (offset + fetchLen offset))

/-- A unit whose successive pages return 2000, 2000, 713 and 0 records. -/
def fetchScenario (offset : Nat) : Nat :=
  if offset < 4713 then min 2000 (4713 - offset) else 0

/-- C6: each iteration queries the current offset and advances it by the
number of records read, terminating exactly on a zero-record page; the
2000/2000/713/0 unit is consumed in exactly 4 fetch calls with exhaustion
only on the last. -/
theorem pagination_offsets_exhaustion :
    (∀ (fetchLen : Nat → Nat) (fuel offset : Nat),
      getNamesLoop fetchLen (fuel + 1) offset =
        offset :: (if fetchLen offset = 0 then []
                   else getNamesLoop fetchLen fuel (offset + fetchLen offset))) ∧
    getNamesLoop fetchScenario 10 0 = [0, 2000, 4000, 4713] ∧
    (getNamesLoop fetchScenario 10 0).length = 4 ∧
    fetchScenario 0 = 2000 ∧ fetchScenario 2000 = 2000 ∧
    fetchScenario 4000 = 713 ∧ fetchScenario 4713 = 0 :=
  ⟨fun _ _ _ => rfl, by decide, by decide, by decide, by decide, by decide,
    by decide⟩

/-! ## Worker-pool sizing (sancrawler.go `loadCrawlerData`, lines 105–171) -/

/-- `numTotalCerts`: the sum of the per-authority record counts. -/
def totalCerts (counts : List Nat) : Nat := counts.foldl (· + ·) 0

/-- Lines 163–167: one crawler per 10,000 estimated records, minimum 1. -/
def numCrawlersOf (counts : List Nat) : Nat :=
  if totalCerts counts < 10000 then 1 else totalCerts counts / 10000

/-- C7: the derived worker count is `max 1 (total / 10000)` for every list
of per-authority counts, with the spec's three examples. -/
theorem numCrawlers_formula :
    (∀ counts : List Nat,
      numCrawlersOf counts = max 1 (totalCerts counts / 10000)) ∧
    numCrawlersOf [5, 15000] = 1 ∧ numCrawlersOf [5000, 6000] = 1 ∧
    numCrawlersOf [12000, 9000] = 2 := by
  refine ⟨fun counts => ?_, by decide, by decide, by decide⟩
  rw [numCrawlersOf]
  by_cases h : totalCerts counts < 10000
  · rw [if_pos h, Nat.div_eq_of_lt h]
    omega
  · rw [if_neg h]
    have h1 : 1 ≤ totalCerts counts / 10000 :=
      Nat.one_le_div_iff (by norm_num) |>.mpr (Nat.le_of_not_lt h)
    omega

/-! ## The unparseable-response path (part_001 `getNames`, lines 136–157,
and `main`, lines 289–340) -/

/-- The keyword-mode run as a function of the search response body.  When
`json.Unmarshal` of the repaired payload fails, `getNames` prints
`FATAL: Request timed out. Consider revising query.` and `return nil`;
`main` stores the nil map and continues (statistics, output file, normal
return).  part_001's `main` never calls `os.Exit` and no `panic` fires on
this path, so the process exit code is 0 either way.  `resolve` abstracts
the network-dependent remainder of a successful crawl.  The pair is
(exit code, published ResultSet: `none` when `getNames` returned nil). -/
def runKeywordFlow (resolve : List CaID → List (List Char))
    (raw : List Char) : Nat × Option (List (List Char)) :=
  match unmarshalCAIDs (patchJSON raw) with
  | none => (0, none)
  | some ids => (0, some (resolve ids))

/-- C5 evidence: on the response body `not json` — unparseable even after
repair — the run does *not* terminate with a non-zero exit: `getNames`
returns nil after printing the FATAL line and the process completes with
exit code 0, contradicting the claim that every fatal condition exits
non-zero immediately. -/
theorem unparseable_response_continues :
    unmarshalCAIDs (patchJSON (String.toList "not json")) = none ∧
    ∀ resolve, runKeywordFlow resolve (String.toList "not json") =
      (0, none) := by
  have h : unmarshalCAIDs (patchJSON (String.toList "not json")) = none := by
    decide
  exact ⟨h, fun resolve => by rw [runKeywordFlow, h]⟩

/-! ## Worker-termination protocol

sancrawler.go `getDomainsByKeyword` (lines 214–254) with worker `getNames`
(lines 49–102); identically part_001 `getNames` (lines 222–253) with
`crawlerFn` (lines 38–93).  The job queue is fully populated before any
worker starts (`loadCrawlerData` runs to completion first, into a buffered
channel).  The coordinator waits until the queue length is zero and only
then sends one termination signal per worker into the buffered
done-channel.  A worker loops on a `select`: between jobs it either
dequeues a job — which it then processes to completion before selecting
again — or consumes a termination signal and returns.  The labelled
transition system below has exactly those moves and no producer, matching
the code's structure. -/

/-- A worker is between jobs, processing a dequeued job, or terminated. -/
inductive WStatus where
  | idle : WStatus
  | busy (job : Nat) : WStatus
  | finished : WStatus
deriving DecidableEq

/-- Coordinator-visible state: job queue, worker statuses, number of
termination signals sitting in the done-channel, and whether the
coordinator has sent them. -/
structure CState where
  queue : List Nat
  workers : List WStatus
  sigs : Nat
  sent : Bool
deriving DecidableEq

/-- Transition labels. -/
inductive CLabel where
  | deq (i job : Nat) : CLabel
  | fin (i : Nat) (job : Nat) : CLabel
  | sig : CLabel
  | recv (i : Nat) : CLabel

/-- The protocol's moves. `recv` requires the worker to be idle because the
worker's `select` is only reached between jobs — a busy worker first
finishes its job (`fin`). -/
inductive Step : CState → CLabel → CState → Prop where
  | deq (s : CState) (i job : Nat) (rest : List Nat)
      (hq : s.queue = job :: rest) (hw : s.workers.get? i = some .idle) :
      Step s (.deq i job)
        { s with queue := rest, workers := s.workers.set i (.busy job) }
  | fin (s : CState) (i job : Nat)
      (hw : s.workers.get? i = some (.busy job)) :
      Step s (.fin i job) { s with workers := s.workers.set i .idle }
  | sig (s : CState) (hs : s.sent = false) (hq : s.queue = []) :
      Step s .sig { s with sent := true, sigs := s.workers.length }
  | recv (s : CState) (i : Nat) (hw : s.workers.get? i = some .idle)
      (hs : 0 < s.sigs) :
      Step s (.recv i)
        { s with workers := s.workers.set i .finished, sigs := s.sigs - 1 }

/-- All jobs queued, `n` idle workers, no signals. -/
def initState (jobs : List Nat) (n : Nat) : CState :=
  { queue := jobs, workers := List.replicate n .idle, sigs := 0,
    sent := false }

/-- Reachability from `s0` by protocol moves. -/
inductive Reach (s0 : CState) : CState → Prop where
  | refl : Reach s0 s0
  | tail {s s' : CState} {l : CLabel} (h : Reach s0 s) (hs : Step s l s') :
      Reach s0 s'

/-- Signals exist only after the coordinator sent them, and the coordinator
sends only on an empty queue, which no move refills. -/
def ProtoInv (s : CState) : Prop :=
  (0 < s.sigs → s.sent = true) ∧ (s.sent = true → s.queue = [])

theorem protoInv_init (jobs : List Nat) (n : Nat) :
    ProtoInv (initState jobs n) :=
  ⟨by intro h; simp [initState] at h, by intro h; simp [initState] at h⟩

theorem protoInv_step {s s' : CState} {l : CLabel} (h : ProtoInv s)
    (hs : Step s l s') : ProtoInv s' := by
  cases hs with
  | deq i job rest hq hw =>
    refine ⟨fun hsig => h.1 hsig, fun hsent => ?_⟩
    have hq0 := h.2 hsent
    rw [hq] at hq0
    exact absurd hq0 (by simp)
  | fin i job hw => exact ⟨h.1, h.2⟩
  | sig hsent hq => exact ⟨fun _ => rfl, fun _ => hq⟩
  | recv i hw hsig =>
    exact ⟨fun _ => h.1 hsig, h.2⟩

theorem protoInv_reach {jobs : List Nat} {n : Nat} {s : CState}
    (h : Reach (initState jobs n) s) : ProtoInv s := by
  induction h with
  | refl => exact protoInv_init jobs n
  | tail hr hstep ih => exact protoInv_step ih hstep

/-- C8: in every reachable state of the coordination protocol, a worker
consuming a termination signal is idle — any job it ever dequeued has been
fully processed — and the job queue is empty at that moment; equivalently,
signals are sent only after the queue is observed empty and a busy worker
finishes its job before it can see a signal. -/
theorem termination_signal_safe (jobs : List Nat) (n : Nat)
    (s s' : CState) (i : Nat) (hr : Reach (initState jobs n) s)
    (hstep : Step s (.recv i) s') :
    s.queue = [] ∧ s.workers.get? i = some .idle := by
  have hinv := protoInv_reach hr
  cases hstep with
  | recv i hw hsig => exact ⟨hinv.2 (hinv.1 hsig), hw⟩

/-! States of a concrete run used to witness `termination_signal_safe`:
one job, one worker; dequeue, finish, signal, receive. -/

def sWit0 : CState := { queue := [7], workers := [.idle], sigs := 0, sent := false }

def sWit1 : CState := { queue := [], workers := [.busy 7], sigs := 0, sent := false }

def sWit2 : CState := { queue := [], workers := [.idle], sigs := 0, sent := false }

def sWit3 : CState := { queue := [], workers := [.idle], sigs := 1, sent := true }

def sWit4 : CState := { queue := [], workers := [.finished], sigs := 0, sent := true }

theorem stepWit01 : Step sWit0 (.deq 0 7) sWit1 := Step.deq sWit0 0 7 [] rfl rfl

theorem stepWit12 : Step sWit1 (.fin 0 7) sWit2 := Step.fin sWit1 0 7 rfl

theorem stepWit23 : Step sWit2 .sig sWit3 := Step.sig sWit2 rfl rfl

theorem stepWit34 : Step sWit3 (.recv 0) sWit4 :=
  Step.recv sWit3 0 rfl (by decide)

/-- Witness for `termination_signal_safe` on the concrete one-job one-worker
run. -/
theorem termination_signal_safe_witness :
    sWit3.queue = [] ∧ sWit3.workers.get? 0 = some WStatus.idle :=
  termination_signal_safe [7] 1 sWit3 sWit4 0
    (Reach.tail (Reach.tail (Reach.tail Reach.refl stepWit01) stepWit12)
      stepWit23)
    stepWit34

end SANCrawler
